import Mathlib

/-!
Shallow embedding of `src/sage/categories/pathtableaux.py` (the path-tableaux
category: local rules, promotion, evacuation, cactus-group generators and the
derived diagrams/checks), together with proofs about the embedded operations.

A path sequence is modelled as a `List α` over an opaque, equality-comparable
shape type `α`.  The abstract method `_rule` is a parameter
`rule : List α → α`; it receives the Python slice `self[i-1:i+2]` exactly as
the source passes it (so it may receive a list of length two at the right
boundary).  Methods that can raise return `Except PyErr _`, where `PyErr`
records the Python exception class raised by the source.  Integer arguments
are modelled as naturals: every guard in the source begins with `0 < i`, so
negative Python arguments take exactly the same raising branch as `i = 0`
and nothing is lost by the restriction.
-/

namespace PathTableaux

/-- Python exceptions raised by the methods of the category.
`valueError msg` models `raise ValueError(msg)`; `nameError n` models the
`NameError` produced when the method body refers to an unresolvable name `n`
(as the source's `orbit` method does with `orbit.join(new)`). -/
inductive PyErr where
  | valueError (msg : String)
  | nameError (missing : String)
  deriving DecidableEq, Repr

variable {α : Type*}

/-- The involution contract demanded of `_rule` (docstring of `_rule`):
applying the rule to a list of length three and replacing the middle term
with the output is an involution. -/
def InvolutiveRule (rule : List α → α) : Prop :=
  ∀ a b c : α, rule [a, rule [a, b, c], c] = b

/-- The single assignment `result[i] = self._rule(result[i-1:i+2])` shared by
`local_rule` and the loop body of `promotion`.  For `1 ≤ i` the Python slice
`result[i-1:i+2]` is `(r.drop (i-1)).take 3` (it has length two, not three,
when `i = len(result) - 1`). -/
def ruleStep (rule : List α → α) (i : ℕ) (r : List α) : List α :=
  r.set i (rule ((r.drop (i - 1)).take 3))

/-- `local_rule(self, i)`: raises `ValueError("%d is not a valid integer." % i)`
unless `0 < i < len(self)`; otherwise returns a copy of `self` with entry `i`
replaced by `self._rule(self[i-1:i+2])`. -/
def local_rule (rule : List α → α) (s : List α) (i : ℕ) : Except PyErr (List α) :=
  if 0 < i ∧ i < s.length then
    .ok (ruleStep rule i s)
  else
    .error (.valueError (toString i ++ " is not a valid integer."))

/-- `promotion(self)`: starting from `result = list(self)`, runs
`for i in range(1, len(result)-1): result[i] = self._rule(result[i-1:i+2])`
on the accumulating working copy.  `range(1, n-1)` is `List.range' 1 (n-2)`. -/
def promotion (rule : List α → α) (s : List α) : List α :=
  (List.range' 1 (s.length - 2)).foldl (fun r i => ruleStep rule i r) s

/-- The loop of `evacuation`, run for a fixed number of rounds: each round
promotes the current working list `l`, pops the last entry of the promoted
list and continues with the truncated list.  The source appends the popped
entries and reverses at the end; accumulating the deepest round first, as
here, produces that reversed order directly.  (`getLast?.toList` is `[x]`
for a nonempty promoted list; the empty case is unreachable from
`evacuation`, which runs `length` rounds on lists of length ≥ 3.) -/
def evacRounds (rule : List α → α) : ℕ → List α → List α
  | 0, _ => []
  | k + 1, l =>
      evacRounds rule k (promotion rule l).dropLast ++ (promotion rule l).getLast?.toList

/-- `evacuation(self)`: returns `self` unchanged when `self.size() < 3`;
otherwise runs the promote-and-pop loop for `len(self)` rounds and returns
the collected last entries in reverse order of collection. -/
def evacuation (rule : List α → α) (s : List α) : List α :=
  if s.length < 3 then s else evacRounds rule s.length s

/-- `cactus(self, i, j)`: raises `ValueError("Integers out of bounds.")`
unless `0 < i < j < self.size()` (the source's chained comparison is strict
at `j`, so the subsequent `i == j` branch is unreachable); for `i == 1`
evacuates the head `self[:j-1]` and appends the tail `self[j-1:]`; otherwise
recurses as `self.cactus(1,j).cactus(1,j-i).cactus(1,j)`.  Errors raised by
the recursive calls propagate. -/
def cactus (rule : List α → α) (s : List α) (i j : ℕ) : Except PyErr (List α) :=
  if hg : 0 < i ∧ i < j ∧ j < s.length then
    if i = j then .ok s
    else if h1 : i = 1 then
      .ok (evacuation rule (s.take (j - 1)) ++ s.drop (j - 1))
    else
      (cactus rule s 1 j).bind fun a =>
        (cactus rule a 1 (j - i)).bind fun b =>
          cactus rule b 1 j
  else
    .error (.valueError "Integers out of bounds.")
termination_by i
decreasing_by
  all_goals omega

/-- The row-building loop of `cylindrical_diagram`: with `k` rows still to
build and `i` rows already built, emits `[None]*i + list(T)` and continues
with `T.promotion()`.  (The source's initial `result = [[None]*(2*n-1)]*n`
is dead: the loop overwrites every row.) -/
def cylRows (rule : List α → α) : ℕ → ℕ → List α → List (List (Option α))
  | 0, _, _ => []
  | k + 1, i, t =>
      (List.replicate i none ++ t.map some) :: cylRows rule k (i + 1) (promotion rule t)

/-- `cylindrical_diagram(self)`: `n` rows, row `i` being `[None]*i + list(T)`
where `T` is the running sequence promoted once more per row. -/
def cylindrical_diagram (rule : List α → α) (s : List α) : List (List (Option α)) :=
  cylRows rule s.length 0 s

/-- `i`-fold application of promotion (the running `T` of the source loops). -/
def promPow (rule : List α → α) : ℕ → List α → List α
  | 0, s => s
  | k + 1, s => promPow rule k (promotion rule s)

/-- `check_promotion(self)`: compares `self.promotion()` with
`self.cactus(1,n).cactus(2,n)` (first `cactus(1,n)`, then `cactus(2,n)` on
the result), `n = self.size()`; exceptions raised by `cactus` propagate. -/
def check_promotion [DecidableEq α] (rule : List α → α) (s : List α) :
    Except PyErr Bool :=
  (cactus rule s 1 s.length).bind fun a =>
    (cactus rule a 2 s.length).bind fun rhs =>
      .ok (decide (promotion rule s = rhs))

/-- `orbit(self)`: the first sweep of the `while` loop computes
`a.cactus(1, i+1)` for `a in rec = {self}` and `i in range(self.size())`,
collecting the values absent from `orb = set([])` and from `rec`; any
`ValueError` raised by `cactus` propagates.  If the sweep completes, the
next statement `orbit.join(new)` raises a `NameError` (`orbit` names the
method, which is not visible as a name inside the body; `copy` on the next
line is likewise undefined), so the loop can never finish an iteration. -/
def orbit [DecidableEq α] (rule : List α → α) (s : List α) :
    Except PyErr (List (List α)) :=
  ([s].foldlM (fun acc a =>
      (List.range s.length).foldlM (fun acc2 i =>
          (cactus rule a 1 (i + 1)).bind fun b =>
            .ok (if b ∈ [s] then acc2 else acc2 ++ [b])) acc)
    ([] : List (List α))).bind fun _ =>
    .error (.nameError "orbit")

/-- A concrete shape type and local rule used for witnesses: shapes are
`Fin 2` and the rule sends a window to the sum of its entries (missing
entries read as `0`).  This rule satisfies `InvolutiveRule` because
`a + (a + b + c) + c = b` in `Fin 2`. -/
def exRule : List (Fin 2) → Fin 2 :=
  fun l => l.getD 0 0 + l.getD 1 0 + l.getD 2 0

/-! ### Words of rule applications

`promotion` and `evacuation` are compositions of the single steps
`ruleStep rule i`; we record the index words of these compositions and
prove the algebra (commutation of far-apart steps, involutivity of each
step, and the resulting involutivity of evacuation) at the level of words.
-/

/-- Apply the steps of an index word from left to right. -/
def applySeq (rule : List α → α) (w : List ℕ) (s : List α) : List α :=
  w.foldl (fun r i => ruleStep rule i r) s

/-- The index word of one promotion sweep over interior positions `1..m`. -/
def promW (m : ℕ) : List ℕ := List.range' 1 m

/-- The index word of evacuation on a list of length `m + 2`:
`evacW (m+1)` first performs a full promotion sweep (indices `1..m+1`) and
then evacuates the first `m + 2` positions, never touching the last one. -/
def evacW : ℕ → List ℕ
  | 0 => []
  | m + 1 => promW (m + 1) ++ evacW m

theorem ruleStep_length (rule : List α → α) (i : ℕ) (r : List α) :
    (ruleStep rule i r).length = r.length :=
  List.length_set ..

theorem applySeq_nil (rule : List α → α) (s : List α) :
    applySeq rule [] s = s := rfl

theorem applySeq_cons (rule : List α → α) (i : ℕ) (w : List ℕ) (s : List α) :
    applySeq rule (i :: w) s = applySeq rule w (ruleStep rule i s) := rfl

theorem applySeq_append (rule : List α → α) (w₁ w₂ : List ℕ) (s : List α) :
    applySeq rule (w₁ ++ w₂) s = applySeq rule w₂ (applySeq rule w₁ s) :=
  List.foldl_append ..

theorem applySeq_length (rule : List α → α) (w : List ℕ) (s : List α) :
    (applySeq rule w s).length = s.length := by
  induction w generalizing s with
  | nil => rfl
  | cons i w ih => rw [applySeq_cons, ih, ruleStep_length]

theorem promotion_eq_applySeq (rule : List α → α) (s : List α) :
    promotion rule s = applySeq rule (promW (s.length - 2)) s := rfl

theorem promotion_length (rule : List α → α) (s : List α) :
    (promotion rule s).length = s.length := by
  rw [promotion_eq_applySeq, applySeq_length]

/-- Any list with `k + 2 < length` splits as `u ++ a :: b :: c :: r` with
`u.length = k`; the entries `a, b, c` form the window read by the step at
position `k + 1`. -/
theorem exists_window_split (s : List α) (k : ℕ) (h : k + 2 < s.length) :
    ∃ u a b c r, s = u ++ a :: b :: c :: r ∧ u.length = k := by
  refine ⟨s.take k, s[k], s[k + 1], s[k + 2], s.drop (k + 3), ?_, by simp; omega⟩
  conv_lhs => rw [← List.take_append_drop k s]
  congr 1
  rw [List.drop_eq_getElem_cons (by omega),
    List.drop_eq_getElem_cons (by omega : k + 1 < s.length),
    List.drop_eq_getElem_cons (by omega : k + 1 + 1 < s.length)]

/-- `ruleStep` evaluated on the split form: it reads the window `[a, b, c]`
and replaces `b` by the value of the rule. -/
theorem ruleStep_split (rule : List α → α) (u : List α) (a b c : α) (r : List α) :
    ruleStep rule (u.length + 1) (u ++ a :: b :: c :: r)
      = u ++ a :: rule [a, b, c] :: c :: r := by
  unfold ruleStep
  rw [Nat.add_sub_cancel, List.drop_left,
    List.set_append_right _ _ (by omega)]
  simp

/-- A step whose window lies entirely in the right part of an append acts
there (used to localize a far-away step). -/
theorem ruleStep_append_right (rule : List α → α) (u w : List α) (j : ℕ)
    (h : u.length + 1 ≤ j) :
    ruleStep rule j (u ++ w) = u ++ ruleStep rule (j - u.length) w := by
  unfold ruleStep
  have e : j - 1 - u.length = j - u.length - 1 := by omega
  rw [List.drop_append_eq_append_drop, List.drop_eq_nil_of_le (by omega),
    List.nil_append, List.set_append_right _ _ (by omega), e]

/-- Each step at an interior position is an involution (the contract). -/
theorem ruleStep_invol (rule : List α → α) (hrule : InvolutiveRule rule)
    (s : List α) (i : ℕ) (h1 : 0 < i) (h2 : i + 1 < s.length) :
    ruleStep rule i (ruleStep rule i s) = s := by
  obtain ⟨u, a, b, c, r, rfl, hu⟩ := exists_window_split s (i - 1) (by omega)
  have hi : i = u.length + 1 := by omega
  subst hi
  rw [ruleStep_split, ruleStep_split, hrule a b c]

/-- Steps at positions at distance at least two commute. -/
theorem ruleStep_comm (rule : List α → α) (s : List α) (i j : ℕ)
    (h1 : 0 < i) (hij : i + 2 ≤ j) (hj : j + 1 < s.length) :
    ruleStep rule j (ruleStep rule i s) = ruleStep rule i (ruleStep rule j s) := by
  obtain ⟨u, a, b, c, r, rfl, hu⟩ := exists_window_split s (i - 1) (by omega)
  have hi : i = u.length + 1 := by omega
  subst hi
  rw [ruleStep_split]
  have split1 : u ++ a :: rule [a, b, c] :: c :: r
      = (u ++ [a, rule [a, b, c]]) ++ c :: r := by simp
  have split2 : u ++ a :: b :: c :: r = (u ++ [a, b]) ++ c :: r := by simp
  rw [split1, ruleStep_append_right _ _ _ _ (by simp; omega),
    split2, ruleStep_append_right _ _ _ _ (by simp; omega)]
  have hlen1 : (u ++ [a, rule [a, b, c]]).length = u.length + 2 := by simp
  have hlen2 : (u ++ [a, b]).length = u.length + 2 := by simp
  rw [hlen1, hlen2]
  obtain ⟨r2, hr2⟩ : ∃ r2, ruleStep rule (j - (u.length + 2)) (c :: r) = c :: r2 := by
    obtain ⟨m, hm⟩ : ∃ m, j - (u.length + 2) = m + 1 := ⟨j - (u.length + 2) - 1, by omega⟩
    rw [hm]
    exact ⟨_, by unfold ruleStep; rw [List.set_cons_succ]⟩
  rw [hr2]
  have split3 : (u ++ [a, b]) ++ c :: r2 = u ++ a :: b :: c :: r2 := by simp
  rw [split3, ruleStep_split]
  simp

/-- A step strictly inside the left part of an append acts on that part. -/
theorem ruleStep_append_left (rule : List α → α) (u v : List α) (i : ℕ)
    (h1 : 0 < i) (h2 : i + 1 < u.length) :
    ruleStep rule i (u ++ v) = ruleStep rule i u ++ v := by
  obtain ⟨u1, a, b, c, r, rfl, hu⟩ := exists_window_split u (i - 1) (by omega)
  have hi : i = u1.length + 1 := by omega
  subst hi
  have e : (u1 ++ a :: b :: c :: r) ++ v = u1 ++ a :: b :: c :: (r ++ v) := by simp
  rw [e, ruleStep_split, ruleStep_split]
  simp

theorem range'_snoc (s m : ℕ) : List.range' s (m + 1) = List.range' s m ++ [s + m] := by
  induction m generalizing s with
  | zero => simp [List.range'_succ]
  | succ m ih =>
      rw [List.range'_succ s (m + 1), ih (s + 1), List.range'_succ s m]
      have e : s + 1 + m = s + (m + 1) := by omega
      simp [e]

theorem promW_succ (m : ℕ) : promW (m + 1) = promW m ++ [m + 1] := by
  unfold promW
  rw [range'_snoc]
  have e : 1 + m = m + 1 := by omega
  rw [e]

theorem mem_promW (m i : ℕ) (h : i ∈ promW m) : 1 ≤ i ∧ i ≤ m := by
  unfold promW at h
  rw [List.mem_range'_1] at h
  omega

theorem mem_evacW (m : ℕ) : ∀ i ∈ evacW m, 1 ≤ i ∧ i ≤ m := by
  induction m with
  | zero => intro i hi; cases hi
  | succ m ih =>
      intro i hi
      rw [show evacW (m + 1) = promW (m + 1) ++ evacW m from rfl, List.mem_append] at hi
      rcases hi with h | h
      · exact mem_promW _ _ h
      · have := ih i h; omega

/-- A word whose steps stay strictly inside the left part of an append acts
on that part. -/
theorem applySeq_append_localize (rule : List α → α) (w : List ℕ) (u v : List α)
    (hw : ∀ i ∈ w, 1 ≤ i ∧ i + 1 < u.length) :
    applySeq rule w (u ++ v) = applySeq rule w u ++ v := by
  induction w generalizing u with
  | nil => rfl
  | cons a w ih =>
      have ha := hw a (by simp)
      rw [applySeq_cons, applySeq_cons, ruleStep_append_left rule u v a ha.1 ha.2]
      exact ih (ruleStep rule a u) fun i hi => by
        rw [ruleStep_length]
        exact hw i (List.mem_cons_of_mem _ hi)

/-- A step that lies at distance at least two beyond every index of a word
can be moved from the front of the word to its back. -/
theorem applySeq_commute_single (rule : List α → α) (w : List ℕ) (j : ℕ) :
    ∀ s : List α, (∀ i ∈ w, 1 ≤ i ∧ i + 2 ≤ j) → j + 1 < s.length →
      applySeq rule (j :: w) s = applySeq rule (w ++ [j]) s := by
  induction w with
  | nil => intro s _ _; rfl
  | cons a w ih =>
      intro s hw hj
      have ha := hw a (by simp)
      rw [applySeq_cons, applySeq_cons, ← ruleStep_comm rule s a j ha.1 ha.2 hj]
      have step := ih (ruleStep rule a s)
        (fun i hi => hw i (List.mem_cons_of_mem _ hi))
        (by rw [ruleStep_length]; exact hj)
      rw [applySeq_cons] at step
      rw [step]
      rfl

/-- A word followed by its reversal cancels, step by step, using the
involutivity of each step. -/
theorem applySeq_palindrome (rule : List α → α) (hrule : InvolutiveRule rule)
    (w : List ℕ) : ∀ s : List α, (∀ i ∈ w, 1 ≤ i ∧ i + 1 < s.length) →
      applySeq rule (w ++ w.reverse) s = s := by
  induction w with
  | nil => intro s _; rfl
  | cons a w ih =>
      intro s hw
      have ha := hw a (by simp)
      have e : (a :: w) ++ (a :: w).reverse = a :: ((w ++ w.reverse) ++ [a]) := by simp
      rw [e, applySeq_cons, applySeq_append,
        ih (ruleStep rule a s) (fun i hi => by
          rw [ruleStep_length]
          exact hw i (List.mem_cons_of_mem _ hi))]
      exact ruleStep_invol rule hrule s a ha.1 ha.2

/-- Key conjugation identity: a full promotion sweep followed by the next
shorter evacuation word equals that evacuation word followed by the
reversed sweep. -/
theorem evacW_conj (rule : List α → α) :
    ∀ m, ∀ s : List α, m + 3 ≤ s.length →
      applySeq rule (promW (m + 1) ++ evacW m) s
        = applySeq rule (evacW m ++ (promW (m + 1)).reverse) s := by
  intro m
  induction m with
  | zero => intro s _; rfl
  | succ m ih =>
      intro s h
      have hsplit : promW (m + 2) = promW (m + 1) ++ [m + 2] := promW_succ (m + 1)
      have hrev : (promW (m + 2)).reverse = (m + 2) :: (promW (m + 1)).reverse := by
        rw [hsplit]; simp
      have hev : evacW (m + 1) = promW (m + 1) ++ evacW m := rfl
      set s1 := applySeq rule (promW (m + 1)) s with hs1
      have hlen1 : s1.length = s.length := applySeq_length ..
      have hcomm : applySeq rule (evacW m) (ruleStep rule (m + 2) s1)
          = applySeq rule (evacW m ++ [m + 2]) s1 :=
        applySeq_commute_single rule (evacW m) (m + 2) s1
          (fun i hi => by have := mem_evacW m i hi; omega)
          (by rw [hlen1]; omega)
      have L1 : applySeq rule (promW (m + 2) ++ evacW (m + 1)) s
          = applySeq rule (promW (m + 1) ++ evacW m) (ruleStep rule (m + 2) s1) := by
        rw [hsplit, hev]
        simp only [applySeq_append]
        rfl
      have L2 : applySeq rule (promW (m + 1) ++ evacW m) (ruleStep rule (m + 2) s1)
          = applySeq rule (evacW m ++ (promW (m + 1)).reverse)
              (ruleStep rule (m + 2) s1) :=
        ih (ruleStep rule (m + 2) s1) (by rw [ruleStep_length, hlen1]; omega)
      have L3 : applySeq rule (evacW m ++ (promW (m + 1)).reverse)
            (ruleStep rule (m + 2) s1)
          = applySeq rule ((promW (m + 1)).reverse)
              (applySeq rule (evacW m ++ [m + 2]) s1) := by
        rw [applySeq_append, hcomm]
      rw [L1, L2, L3, hev, hrev]
      simp only [applySeq_append]
      rfl

/-- The evacuation word is involutive on any long enough list. -/
theorem evacW_invol (rule : List α → α) (hrule : InvolutiveRule rule) :
    ∀ m, ∀ s : List α, m + 2 ≤ s.length →
      applySeq rule (evacW m) (applySeq rule (evacW m) s) = s := by
  intro m
  induction m with
  | zero => intro s _; rfl
  | succ m ih =>
      intro s h
      have hev : evacW (m + 1) = promW (m + 1) ++ evacW m := rfl
      set s1 := applySeq rule (promW (m + 1)) s with hs1
      have hlen1 : s1.length = s.length := applySeq_length ..
      have t_eq : applySeq rule (evacW (m + 1)) s = applySeq rule (evacW m) s1 := by
        rw [hev, applySeq_append]
      have hconj := evacW_conj rule m (applySeq rule (evacW (m + 1)) s)
        (by rw [applySeq_length]; omega)
      rw [← hev] at hconj
      calc applySeq rule (evacW (m + 1)) (applySeq rule (evacW (m + 1)) s)
          = applySeq rule (evacW m ++ (promW (m + 1)).reverse)
              (applySeq rule (evacW (m + 1)) s) := hconj
        _ = applySeq rule ((promW (m + 1)).reverse)
              (applySeq rule (evacW m) (applySeq rule (evacW m) s1)) := by
            rw [applySeq_append, t_eq]
        _ = applySeq rule ((promW (m + 1)).reverse) s1 := by
            rw [ih s1 (by omega)]
        _ = applySeq rule (promW (m + 1) ++ (promW (m + 1)).reverse) s := by
            rw [applySeq_append]
        _ = s := applySeq_palindrome rule hrule (promW (m + 1)) s
              (fun i hi => by have := mem_promW _ _ hi; omega)

/-- The promote-and-pop loop of `evacuation`, run for `length` rounds,
performs exactly the evacuation word. -/
theorem evacRounds_eq (rule : List α → α) :
    ∀ k, ∀ L : List α, L.length = k →
      evacRounds rule k L = applySeq rule (evacW (k - 2)) L := by
  intro k
  induction k with
  | zero =>
      intro L hL
      rw [List.length_eq_zero] at hL
      subst hL
      rfl
  | succ k ih =>
      intro L hL
      have hT : (promotion rule L).length = k + 1 := by rw [promotion_length, hL]
      have hTne : promotion rule L ≠ [] := by
        intro hc; rw [hc] at hT; simp at hT
      have hlast : (promotion rule L).getLast?.toList = [(promotion rule L).getLast hTne] := by
        rw [List.getLast?_eq_getLast _ hTne]
        rfl
      have hdl : (promotion rule L).dropLast.length = k := by
        rw [List.length_dropLast, hT]
        omega
      have step : evacRounds rule (k + 1) L
          = applySeq rule (evacW (k - 2)) (promotion rule L).dropLast
              ++ [(promotion rule L).getLast hTne] := by
        rw [show evacRounds rule (k + 1) L
            = evacRounds rule k (promotion rule L).dropLast
              ++ (promotion rule L).getLast?.toList from rfl,
          ih (promotion rule L).dropLast hdl, hlast]
      rcases k with _ | _ | m
      · -- length 1: promotion is the identity sweep and evacuation returns the entry
        rw [step]
        show (promotion rule L).dropLast ++ [(promotion rule L).getLast hTne] = L
        rw [List.dropLast_concat_getLast hTne, promotion_eq_applySeq, hL]
        rfl
      · -- length 2: the sweep is empty and the two entries are collected in order
        rw [step]
        show (promotion rule L).dropLast ++ [(promotion rule L).getLast hTne] = L
        rw [List.dropLast_concat_getLast hTne, promotion_eq_applySeq, hL]
        rfl
      · -- length at least 3
        have hprom : applySeq rule (promW (m + 1)) L = promotion rule L := by
          rw [promotion_eq_applySeq, hL]
          rfl
        have hsplitL : (promotion rule L).dropLast
              ++ [(promotion rule L).getLast hTne] = promotion rule L :=
          List.dropLast_concat_getLast hTne
        have hloc : applySeq rule (evacW m) (promotion rule L)
            = applySeq rule (evacW m) (promotion rule L).dropLast
              ++ [(promotion rule L).getLast hTne] := by
          conv_lhs => rw [← hsplitL]
          exact applySeq_append_localize rule _ _ _
            (fun i hi => by
              have := mem_evacW _ i hi
              rw [hdl]
              omega)
        rw [step]
        show applySeq rule (evacW m) (promotion rule L).dropLast
            ++ [(promotion rule L).getLast hTne]
          = applySeq rule (evacW (m + 1)) L
        rw [← hloc,
          show evacW (m + 1) = promW (m + 1) ++ evacW m from rfl,
          applySeq_append, hprom]

/-- `evacuation` performs exactly the evacuation word (also when the
`size < 3` early return fires, where the word is empty). -/
theorem evacuation_eq (rule : List α → α) (s : List α) :
    evacuation rule s = applySeq rule (evacW (s.length - 2)) s := by
  unfold evacuation
  by_cases h : s.length < 3
  · rw [if_pos h]
    have e : s.length - 2 = 0 := by omega
    rw [e]
    rfl
  · rw [if_neg h]
    exact evacRounds_eq rule s.length s rfl

theorem evacuation_length (rule : List α → α) (s : List α) :
    (evacuation rule s).length = s.length := by
  rw [evacuation_eq, applySeq_length]

/-- Evacuation is an involution whenever the rule satisfies the contract. -/
theorem evacuation_invol (rule : List α → α) (hrule : InvolutiveRule rule)
    (s : List α) : evacuation rule (evacuation rule s) = s := by
  rw [evacuation_eq rule (evacuation rule s), evacuation_length, evacuation_eq rule s]
  rcases Nat.lt_or_ge s.length 2 with h | h
  · have e : s.length - 2 = 0 := by omega
    rw [e]
    rfl
  · exact evacW_invol rule hrule (s.length - 2) s (by omega)

theorem except_bind_ok {β γ : Type*} (a : β) (f : β → Except PyErr γ) :
    (Except.ok a : Except PyErr β).bind f = f a := rfl

theorem except_bind_error {β γ : Type*} (e : PyErr) (f : β → Except PyErr γ) :
    (Except.error e : Except PyErr β).bind f = Except.error e := rfl

/-- Unfolding `cactus` when the range guard fails. -/
theorem cactus_guard_fail (rule : List α → α) (s : List α) (i j : ℕ)
    (h : ¬(0 < i ∧ i < j ∧ j < s.length)) :
    cactus rule s i j = .error (.valueError "Integers out of bounds.") := by
  rw [cactus.eq_def]
  exact dif_neg h

/-- Unfolding `cactus` in the base case `i = 1`. -/
theorem cactus_one (rule : List α → α) (s : List α) (j : ℕ)
    (h1 : 1 < j) (h2 : j < s.length) :
    cactus rule s 1 j = .ok (evacuation rule (s.take (j - 1)) ++ s.drop (j - 1)) := by
  rw [cactus.eq_def, dif_pos ⟨by omega, h1, h2⟩, if_neg (by omega : ¬(1 = j)),
    dif_pos rfl]

/-- Unfolding `cactus` in the recursive case `1 < i < j`. -/
theorem cactus_rec (rule : List α → α) (s : List α) (i j : ℕ)
    (hg : 0 < i ∧ i < j ∧ j < s.length) (hi : i ≠ 1) :
    cactus rule s i j = (cactus rule s 1 j).bind fun a =>
        (cactus rule a 1 (j - i)).bind fun b => cactus rule b 1 j := by
  rw [cactus.eq_def, dif_pos hg, if_neg (by omega : ¬(i = j)), dif_neg hi]

/-- Whenever `cactus` returns a sequence, that sequence has the length of
the receiver. -/
theorem cactus_ok_length (rule : List α → α) :
    ∀ i j (s t : List α), cactus rule s i j = .ok t → t.length = s.length := by
  intro i
  induction i using Nat.strong_induction_on with
  | _ i ih =>
    intro j s t hc
    by_cases hg : 0 < i ∧ i < j ∧ j < s.length
    · by_cases hij : i = j
      · rw [cactus.eq_def, dif_pos hg, if_pos hij] at hc
        injection hc with hc
        rw [← hc]
      · by_cases hi1 : i = 1
        · subst hi1
          rw [cactus_one rule s j (by omega) hg.2.2] at hc
          injection hc with hc
          rw [← hc, List.length_append, evacuation_length, List.length_take,
            List.length_drop]
          omega
        · rw [cactus_rec rule s i j hg hi1] at hc
          cases ha : cactus rule s 1 j with
          | error e => rw [ha, except_bind_error] at hc; cases hc
          | ok a =>
            rw [ha, except_bind_ok] at hc
            cases hb : cactus rule a 1 (j - i) with
            | error e => rw [hb, except_bind_error] at hc; cases hc
            | ok b =>
              rw [hb, except_bind_ok] at hc
              have l1 := ih 1 (by omega) j s a ha
              have l2 := ih 1 (by omega) (j - i) a b hb
              have l3 := ih 1 (by omega) j b t hc
              omega
    · rw [cactus_guard_fail rule s i j hg] at hc
      cases hc

theorem promPow_length (rule : List α → α) :
    ∀ k (s : List α), (promPow rule k s).length = s.length := by
  intro k
  induction k with
  | zero => intro s; rfl
  | succ k ih =>
      intro s
      rw [show promPow rule (k + 1) s = promPow rule k (promotion rule s) from rfl,
        ih, promotion_length]

/-- The rows built by the `cylindrical_diagram` loop: there are `k` of them,
and the row at offset `j` carries `i + j` placeholders followed by the
`j`-th promotion power of the running sequence. -/
theorem cylRows_spec (rule : List α → α) :
    ∀ k i (t : List α), (cylRows rule k i t).length = k
      ∧ ∀ j, j < k → (cylRows rule k i t).getD j []
          = List.replicate (i + j) none ++ (promPow rule j t).map some := by
  intro k
  induction k with
  | zero => exact fun i t => ⟨rfl, fun j hj => absurd hj (by omega)⟩
  | succ k ih =>
      intro i t
      constructor
      · rw [show cylRows rule (k + 1) i t
            = (List.replicate i none ++ t.map some)
              :: cylRows rule k (i + 1) (promotion rule t) from rfl]
        rw [List.length_cons, (ih (i + 1) (promotion rule t)).1]
      · intro j hj
        cases j with
        | zero =>
            rw [show cylRows rule (k + 1) i t
              = (List.replicate i none ++ t.map some)
                :: cylRows rule k (i + 1) (promotion rule t) from rfl]
            rfl
        | succ j =>
            rw [show (cylRows rule (k + 1) i t).getD (j + 1) []
              = (cylRows rule k (i + 1) (promotion rule t)).getD j [] from rfl,
              (ih (i + 1) (promotion rule t)).2 j (by omega),
              show i + 1 + j = i + (j + 1) from by omega]
            rfl

/-- The concrete rule `exRule` satisfies the involution contract. -/
theorem exRule_involutive : InvolutiveRule exRule := by
  have h : ∀ a b c : Fin 2, exRule [a, exRule [a, b, c], c] = b := by decide
  exact h

/-! ### Claim theorems -/

/-- Claim C1.  The claim states that `cactus(s, i, j)` succeeds for every
pair with `0 < i < j ≤ size(s)` and raises otherwise.  The code instead
guards with the strict comparison `0 < i < j < self.size()`, so the pair
`(1, 3)` on a sequence of size 3 — valid according to the claim — raises
`ValueError("Integers out of bounds.")`. -/
theorem cactus_raises_on_claimed_valid_pair :
    cactus exRule [0, 1, 0] 1 3 = .error (.valueError "Integers out of bounds.") :=
  cactus_guard_fail exRule _ 1 3 (by decide)

/-- Claim C2.  The claim states that `check_promotion(s)` returns `true` for
a rule satisfying the involution contract.  `exRule` satisfies the contract,
yet on the size-3 sequence `[0,1,0]` the method raises: it calls
`self.cactus(1, n)` with `n = size(s)`, and `cactus` rejects `j = size(s)`. -/
theorem check_promotion_raises :
    check_promotion exRule [0, 1, 0] = .error (.valueError "Integers out of bounds.") := by
  unfold check_promotion
  rw [show ([0, 1, 0] : List (Fin 2)).length = 3 from rfl,
    cactus_guard_fail exRule _ 1 3 (by decide), except_bind_error]

/-- Claim C3.  The claim states that `cactus(s, i, i)` returns `s`
unchanged.  The guard `0 < i < j < self.size()` rejects every pair with
`i = j` before the `if i == j: return self` branch can run, so
`cactus(s, 1, 1)` raises `ValueError` instead of acting as the identity. -/
theorem cactus_equal_endpoints_raises :
    cactus exRule [0, 1, 0] 1 1 = .error (.valueError "Integers out of bounds.") :=
  cactus_guard_fail exRule _ 1 1 (by decide)

/-- Claim C4.  The claim states that `cactus(i, j)` acts as an involution
for every valid pair `0 < i < j ≤ size(s)` (in particular without raising).
For `i = 2, j = 3` on a size-4 sequence the guard passes, but the recursion
`cactus(1,3).cactus(1,1).cactus(1,3)` reaches `cactus(1, 1)`, whose guard
`0 < 1 < 1` fails, so the call raises instead of returning. -/
theorem cactus_involution_pair_raises :
    cactus exRule [0, 1, 0, 1] 2 3 = .error (.valueError "Integers out of bounds.") := by
  rw [cactus_rec exRule [0, 1, 0, 1] 2 3 (by decide) (by decide),
    cactus_one exRule [0, 1, 0, 1] 3 (by decide) (by decide), except_bind_ok,
    cactus_guard_fail exRule _ 1 (3 - 2) (by omega), except_bind_error]

/-- Claim C5.  For every rule satisfying the involution contract,
`evacuation` is an involution, and it returns sequences of size `< 3`
unchanged. -/
theorem evacuation_involution_claim (rule : List α → α)
    (hrule : InvolutiveRule rule) (s : List α) :
    evacuation rule (evacuation rule s) = s
      ∧ (s.length < 3 → evacuation rule s = s) :=
  ⟨evacuation_invol rule hrule s, fun h => by unfold evacuation; rw [if_pos h]⟩

/-- Witness for C5 at the concrete rule `exRule` and sequence `[0,1,0,1]`. -/
theorem evacuation_involution_claim_witness :
    InvolutiveRule exRule
      ∧ (evacuation exRule (evacuation exRule [0, 1, 0, 1]) = [0, 1, 0, 1]
        ∧ (([0, 1, 0, 1] : List (Fin 2)).length < 3
            → evacuation exRule [0, 1, 0, 1] = [0, 1, 0, 1])) :=
  ⟨exRule_involutive, evacuation_involution_claim exRule exRule_involutive [0, 1, 0, 1]⟩

/-- Claim C6.  For every rule satisfying the involution contract and every
interior index `0 < i < size(s) − 1`, applying `local_rule` at `i` twice
returns the original sequence (and no error is raised at either step). -/
theorem local_rule_involution_claim (rule : List α → α)
    (hrule : InvolutiveRule rule) (s : List α) (i : ℕ)
    (h1 : 0 < i) (h2 : i + 1 < s.length) :
    (local_rule rule s i).bind (fun t => local_rule rule t i) = Except.ok s := by
  unfold local_rule
  rw [if_pos ⟨h1, by omega⟩, except_bind_ok,
    if_pos ⟨h1, by rw [ruleStep_length]; omega⟩,
    ruleStep_invol rule hrule s i h1 h2]

/-- Witness for C6 at the concrete rule `exRule`, `s = [0,1,0]`, `i = 1`. -/
theorem local_rule_involution_claim_witness :
    (InvolutiveRule exRule ∧ 0 < 1 ∧ 1 + 1 < ([0, 1, 0] : List (Fin 2)).length)
      ∧ (local_rule exRule [0, 1, 0] 1).bind (fun t => local_rule exRule t 1)
          = Except.ok [0, 1, 0] :=
  ⟨⟨exRule_involutive, by decide, by decide⟩,
    local_rule_involution_claim exRule exRule_involutive [0, 1, 0] 1 (by decide) (by decide)⟩

/-- Counterexample to claim C7: the claim says `local_rule(s, i)` fails
exactly when `i` is not an interior index (`0 < i < size(s) − 1`).  But the
code only checks `0 < i < size(s)`: at `i = size(s) − 1 = 2` on `[0,1,0]`
no error is raised — the rule is applied to the two-element slice
`self[1:4] = [1, 0]` and the call returns normally. -/
theorem local_rule_boundary_no_raise :
    local_rule exRule [0, 1, 0] 2 = .ok [0, 1, 1] := by rfl

/-- Amended claim C7: `local_rule(s, i)` fails — with a `ValueError`
(not an `IndexError`) naming the invalid index — exactly when
`¬(0 < i < size(s))`; when `0 < i < size(s)` it returns `s` with entry `i`
replaced by the rule applied to the slice `s[i-1 : i+2]`, and for interior
`i` (`0 < i < size(s) − 1`) that slice is the triple `[s[i-1], s[i], s[i+1]]`. -/
theorem local_rule_spec (rule : List α → α) (s : List α) (i : ℕ) :
    (¬(0 < i ∧ i < s.length) →
        local_rule rule s i
          = .error (.valueError (toString i ++ " is not a valid integer.")))
    ∧ ((0 < i ∧ i < s.length) →
        local_rule rule s i = .ok (s.set i (rule ((s.drop (i - 1)).take 3))))
    ∧ (0 < i → i + 1 < s.length →
        ((s.drop (i - 1)).take 3).map some = [s[i - 1]?, s[i]?, s[i + 1]?]) := by
  refine ⟨fun h => by unfold local_rule; rw [if_neg h],
    fun h => by unfold local_rule; rw [if_pos h]; rfl, fun h1 h2 => ?_⟩
  obtain ⟨u, a, b, c, r, rfl, hu⟩ := exists_window_split s (i - 1) (by omega)
  have e0 : (u ++ a :: b :: c :: r)[i - 1]? = some a := by
    rw [List.getElem?_append_right (by omega),
      show i - 1 - u.length = 0 from by omega]
    simp
  have e1 : (u ++ a :: b :: c :: r)[i]? = some b := by
    rw [List.getElem?_append_right (by omega),
      show i - u.length = 1 from by omega]
    simp
  have e2 : (u ++ a :: b :: c :: r)[i + 1]? = some c := by
    rw [List.getElem?_append_right (by omega),
      show i + 1 - u.length = 2 from by omega]
    simp
  rw [e0, e1, e2, List.drop_left' hu]
  rfl

/-- Witness for the amended C7 at `exRule`, `s = [0,1,0]`, `i = 1` (interior
case) and `i = 5` (error case), with each hypothesis discharged. -/
theorem local_rule_spec_witness :
    local_rule exRule [0, 1, 0] 5
        = .error (.valueError (toString 5 ++ " is not a valid integer."))
      ∧ local_rule exRule [0, 1, 0] 1
          = .ok (([0, 1, 0] : List (Fin 2)).set 1
              (exRule ((([0, 1, 0] : List (Fin 2)).drop 0).take 3))) :=
  ⟨(local_rule_spec exRule [0, 1, 0] 5).1 (by decide),
    (local_rule_spec exRule [0, 1, 0] 1).2.1 (by decide)⟩

/-- Counterexample to claim C8: the claim says every row of the cylindrical
diagram has length `2n − 1`.  For `s = [0, 1]` (so `n = 2`, `2n − 1 = 3`)
row 0 is `[some 0, some 1]`, of length `2`: the code pads each row `i` on
the left with `i` placeholders only, so row `i` has length `n + i`, and
only the last row reaches `2n − 1`. -/
theorem cylindrical_diagram_row_length_cex :
    ¬ (∀ row ∈ cylindrical_diagram exRule [0, 1], row.length = 2 * 2 - 1) := by
  intro h
  have h0 : (([0, 1] : List (Fin 2)).map some).length = 2 * 2 - 1 :=
    h (([0, 1] : List (Fin 2)).map some) (by
      rw [show cylindrical_diagram exRule [0, 1]
        = (([] : List (Option (Fin 2))) ++ ([0, 1] : List (Fin 2)).map some)
          :: cylRows exRule 1 1 (promotion exRule [0, 1]) from rfl]
      simp)
  simp at h0

/-- Amended claim C8: `cylindrical_diagram(s)` has `n = size(s)` rows; row
`i` (`0 ≤ i < n`) consists of `i` `None` placeholders followed by the
sequence obtained by applying promotion `i` times to `s`, and therefore has
length `n + i` (only the final row has length `2n − 1`); in particular
row 0 equals `s` itself. -/
theorem cylindrical_diagram_spec (rule : List α → α) (s : List α) :
    (cylindrical_diagram rule s).length = s.length
    ∧ (∀ i, i < s.length →
        (cylindrical_diagram rule s).getD i []
          = List.replicate i none ++ (promPow rule i s).map some)
    ∧ (∀ i, i < s.length →
        ((cylindrical_diagram rule s).getD i []).length = s.length + i)
    ∧ (0 < s.length → (cylindrical_diagram rule s).getD 0 [] = s.map some) := by
  have h := cylRows_spec rule s.length 0 s
  refine ⟨h.1, fun i hi => by simpa using h.2 i hi, fun i hi => ?_, fun hpos => ?_⟩
  · rw [show (cylindrical_diagram rule s).getD i []
        = (cylRows rule s.length 0 s).getD i [] from rfl, h.2 i hi,
      List.length_append, List.length_replicate, List.length_map, promPow_length]
    omega
  · have h0 := h.2 0 hpos
    rw [show (cylindrical_diagram rule s).getD 0 []
        = (cylRows rule s.length 0 s).getD 0 [] from rfl, h0]
    rfl

/-- Witness for the amended C8 at `exRule`, `s = [0, 1]`, row `i = 1`. -/
theorem cylindrical_diagram_spec_witness :
    (1 < ([0, 1] : List (Fin 2)).length)
      ∧ (cylindrical_diagram exRule [0, 1]).getD 1 []
          = List.replicate 1 none ++ (promPow exRule 1 [0, 1]).map some :=
  ⟨by decide, (cylindrical_diagram_spec exRule [0, 1]).2.1 1 (by decide)⟩

/-- Claim C9.  The claim states that `orbit(s)` terminates and returns the
closure of `{s}` under the generators `cactus(1, j)`, `1 < j ≤ size(s)`.
The method, however, can never finish even one sweep: the very first
generator application it attempts is `a.cactus(1, 0+1) = cactus(1, 1)`
(the loop runs `i` over `range(self.size())` starting at `i = 0`), whose
guard `0 < 1 < 1` fails, raising `ValueError`; and even if the sweep were
survived, the next line `orbit.join(new)` refers to the undefined name
`orbit` (and `copy` below it is undefined as well). -/
theorem orbit_always_raises :
    orbit exRule [0, 1, 0] = .error (.valueError "Integers out of bounds.") := by
  unfold orbit
  rw [show ([0, 1, 0] : List (Fin 2)).length = 3 from rfl,
    show List.range 3 = [0, 1, 2] from rfl,
    List.foldlM_cons, List.foldlM_cons,
    cactus_guard_fail exRule _ 1 (0 + 1) (by omega)]
  rfl

/-- Claim C10.  Every operator that returns a sequence preserves its length:
`local_rule` and `cactus` whenever they return `ok`, and `promotion` and
`evacuation` always. -/
theorem operators_preserve_size (rule : List α → α) (s : List α) :
    (∀ i t, local_rule rule s i = .ok t → t.length = s.length)
    ∧ (promotion rule s).length = s.length
    ∧ (evacuation rule s).length = s.length
    ∧ (∀ i j t, cactus rule s i j = .ok t → t.length = s.length) := by
  refine ⟨?_, promotion_length rule s, evacuation_length rule s,
    fun i j t h => cactus_ok_length rule i j s t h⟩
  intro i t h
  unfold local_rule at h
  by_cases hg : 0 < i ∧ i < s.length
  · rw [if_pos hg] at h
    injection h with h
    rw [← h, ruleStep_length]
  · rw [if_neg hg] at h
    cases h

/-- Witness for C10 at `exRule`, `s = [0, 1, 1, 0, 1]`, with the `cactus`
hypothesis discharged at the pair `(1, 4)` (where the generator genuinely
changes the sequence). -/
theorem operators_preserve_size_witness :
    cactus exRule [0, 1, 1, 0, 1] 1 4 = .ok [0, 0, 1, 0, 1]
      ∧ ([0, 0, 1, 0, 1] : List (Fin 2)).length
          = ([0, 1, 1, 0, 1] : List (Fin 2)).length := by
  have hc : cactus exRule [0, 1, 1, 0, 1] 1 4 = .ok [0, 0, 1, 0, 1] := by
    rw [cactus_one exRule [0, 1, 1, 0, 1] 4 (by omega) (by decide)]
    rfl
  exact ⟨hc, (operators_preserve_size exRule [0, 1, 1, 0, 1]).2.2.2 1 4 _ hc⟩

end PathTableaux
